import Mathlib

/-!
# Dot-product benchmark (`cmd/metal/main.go`)

A shallow embedding of the three dot-product routines of `cmd/metal/main.go`
(`dotProductNaive`, `dotProductCPU`, `dotProductGPU`) and theorems about them.

Conventions of the embedding:

* A Go `[]float32` is a `List α`.  The element type `α` is kept abstract, with the
  operations `+`, `*` and `0` that the source uses, so that the same definitions can be
  read with exact arithmetic (`Int`) and with rounded arithmetic (`F32`, below).
* Go `int` is a 64-bit two's-complement integer; every `int` operation of the source is
  followed by `wrapInt`.
* A run-time panic is an `Except.error` carrying a `GoPanic`.
* The two sources of nondeterminism of `dotProductCPU` are explicit arguments: the order in
  which the goroutines store their partial result (`sched`) and the order in which
  `range results` visits the map (`iter`).  After `wg.Wait()` every launched goroutine has
  stored once, and `range` visits every key once: both are permutations of the chunk
  indices `0, ..., workersLaunched - 1`, which is what the theorems assume of them.
* The length of a `[]float32` is below `2 ^ 62` (its elements take four bytes each in a
  64-bit address space); theorems that depend on the absence of wrap-around carry this bound
  as a hypothesis.
-/

set_option maxRecDepth 8192

namespace GoGpu

/-! ## Go run-time primitives -/

/-- The run-time panics the modelled code can raise. -/
inductive GoPanic where
  | divideByZero
  | indexOutOfRange
  deriving DecidableEq, Repr

/-- Two's-complement reduction of a mathematical integer to a Go `int` (64 bits). -/
def wrapInt (x : Int) : Int := (x + 2 ^ 63) % 2 ^ 64 - 2 ^ 63

/-- Go `a + b` on `int`. -/
def intAdd (a b : Int) : Int := wrapInt (a + b)

/-- Go `a - b` on `int`. -/
def intSub (a b : Int) : Int := wrapInt (a - b)

/-- Go `a * b` on `int`. -/
def intMul (a b : Int) : Int := wrapInt (a * b)

/-- Go `a / b` on `int`: truncated division, panics when the divisor is zero. -/
def intDiv (a b : Int) : Except GoPanic Int :=
  if b = 0 then .error .divideByZero else .ok (wrapInt (Int.tdiv a b))

/-- Go `s[j]` for an `int` index: panics unless `0 <= j < len(s)`. -/
def index {α : Type} (s : List α) (j : Int) : Except GoPanic α :=
  if 0 ≤ j then
    match s[j.toNat]? with
    | some v => .ok v
    | none => .error .indexOutOfRange
  else .error .indexOutOfRange

/-- The loop body `acc += s1[j] * s2[j]`, shared by `dotProductNaive` and by the goroutines
of `dotProductCPU`, run over the successive values `js` of the loop index.  `s1[j]` is
evaluated before `s2[j]`; the first failing index expression panics. -/
def mulAddLoop {α : Type} [Add α] [Mul α] (s1 s2 : List α) : List Int → α → Except GoPanic α
  | [], acc => .ok acc
  | j :: js, acc =>
    match index s1 j, index s2 j with
    | .ok a, .ok b => mulAddLoop s1 s2 js (acc + a * b)
    | .error p, _ => .error p
    | _, .error p => .error p

/-! ## `dotProductNaive` -/

/-- The indices `i` visited by `for i := range s1`. -/
def rangeIndices {α : Type} (s1 : List α) : List Int :=
  (List.range s1.length).map fun (i : Nat) => (i : Int)

/-- Embedding of `dotProductNaive(s1, s2 []float32) float32`:
`var result float32; for i := range s1 { result += s1[i] * s2[i] }; return result`. -/
def dotProductNaive {α : Type} [Add α] [Mul α] [Zero α] (s1 s2 : List α) : Except GoPanic α :=
  mulAddLoop s1 s2 (rangeIndices s1) 0

/-! ## `dotProductCPU` -/

/-- The clamp `if size <= gn { gn = size }`. -/
def clampWorkers (size gn : Int) : Int := if size ≤ gn then size else gn

/-- The statement `chunkSize := (size + gn - 1) / gn`. -/
def chunkSize (size gn : Int) : Except GoPanic Int :=
  intDiv (intSub (intAdd size gn) 1) gn

/-- The pair `(start, end)` computed in iteration `i` of the launching loop. -/
def chunkBounds (size chunkSize i : Int) : Int × Int :=
  let start := intMul i chunkSize
  let end_ := intMul (intAdd i 1) chunkSize
  (start, if end_ > size then size else end_)

/-- The chunks handed to goroutines by `for i := 0; i < gn; i++`, in launch order, or the
panic raised before the loop is entered. -/
def chunks (size gn : Int) : Except GoPanic (List (Int × Int)) :=
  let gn := clampWorkers size gn
  match chunkSize size gn with
  | .error p => .error p
  | .ok chunkSize =>
    .ok ((List.range gn.toNat).map fun (i : Nat) => chunkBounds size chunkSize (i : Int))

/-- Number of goroutines the launching loop starts when it runs to its end (none when the
chunk-size division panics, because the loop is then never reached). -/
def workersLaunched (size gn : Int) : Nat :=
  match chunks size gn with
  | .error _ => 0
  | .ok cs => cs.length

/-- The indices `j` visited by `for j := start; j < end; j++`: none when `end <= start`,
otherwise `start, start + 1, ..., end - 1` (the increment is only executed below `end`, so
it never wraps). -/
def workerIndices (start end_ : Int) : List Int :=
  (List.range (end_ - start).toNat).map fun (k : Nat) => start + (k : Int)

/-- The goroutine `func(start, end int)`: its `partialResult`, or its panic. -/
def worker {α : Type} [Add α] [Mul α] [Zero α]
    (s1 s2 : List α) (start end_ : Int) : Except GoPanic α :=
  mulAddLoop s1 s2 (workerIndices start end_) 0

/-- The map store `results[i] = partialResult`. -/
def mapStore {α : Type} (results : List (Nat × α)) (i : Nat) (v : α) : List (Nat × α) :=
  (i, v) :: results.filter fun e => e.1 != i

/-- The map read `results[i]`. -/
def mapLoad {α : Type} (results : List (Nat × α)) (i : Nat) : Option α :=
  (results.find? fun e => e.1 == i).map Prod.snd

/-- The goroutines run to completion in the order `sched`; each stores its partial result
under its chunk index.  A panic in any goroutine ends the program. -/
def runWorkers {α : Type} [Add α] [Mul α] [Zero α] (s1 s2 : List α) (cs : List (Int × Int)) :
    List Nat → List (Nat × α) → Except GoPanic (List (Nat × α))
  | [], results => .ok results
  | i :: rest, results =>
    match cs[i]? with
    | none => runWorkers s1 s2 cs rest results
    | some c =>
      match worker s1 s2 c.1 c.2 with
      | .error p => .error p
      | .ok partialResult => runWorkers s1 s2 cs rest (mapStore results i partialResult)

/-- The loop `for _, res := range results { result += res }` when `range` visits the keys in
the order `iter`. -/
def sumResults {α : Type} [Add α] [Zero α] (results : List (Nat × α)) (iter : List Nat) : α :=
  iter.foldl (fun result k =>
    match mapLoad results k with
    | some res => result + res
    | none => result) 0

/-- Embedding of `dotProductCPU(s1, s2 []float32, gn int) float32`.  `sched` is the order in
which the goroutines finish, `iter` the order in which `range results` visits the keys.
The call `make(map[int]float32, gn)` takes `gn` as a capacity hint only and raises no panic,
also for a negative `gn`; `wg.Wait()` returns once all launched goroutines have stored. -/
def dotProductCPU {α : Type} [Add α] [Mul α] [Zero α]
    (sched iter : List Nat) (s1 s2 : List α) (gn : Int) : Except GoPanic α :=
  match chunks (s1.length : Int) gn with
  | .error p => .error p
  | .ok cs =>
    match runWorkers s1 s2 cs sched [] with
    | .error p => .error p
    | .ok results => .ok (sumResults results iter)

/-! ## `dotProductGPU` -/

/-- The constant `arrLen := uint(4)`. -/
def arrLen : Nat := 4

/-- The value of `unsafe.Sizeof(dataA)` for a slice on a 64-bit target: the three words of
the slice header (pointer, length, capacity), whatever the slice holds. -/
def sizeofSlice : Nat := 24

/-- The value of `unsafe.Sizeof(arrLen)` for a `uint` on a 64-bit target. -/
def sizeofUint : Nat := 8

/-- Size in bytes of one `float32`. -/
def sizeofFloat32 : Nat := 4

/-- The call `device.NewBufferWithBytes(unsafe.Pointer(&data[0]), length, ...)`: a device
buffer of `length` bytes copied from the memory that starts at `data[0]`.  A `float32` slot
past the last element of `data` holds indeterminate memory (`none`).  `&data[0]` panics on an
empty slice. -/
def newBufferWithBytes {α : Type}
    (data : List α) (length : Nat) : Except GoPanic (List (Option α)) :=
  match data with
  | [] => .error .indexOutOfRange
  | _ :: _ => .ok ((List.range (length / sizeofFloat32)).map fun i => data[i]?)

/-- The Metal kernel `result[index] = inA[index] * inB[index]`. -/
def kernel {α : Type} [Mul α] (inA inB : List (Option α)) (index : Nat) : Option α :=
  match inA[index]?, inB[index]? with
  | some (some a), some (some b) => some (a * b)
  | _, _ => none

/-- Embedding of `dotProductGPU(dataA, dataB []float32) float32`.  The grid dispatched has
width `arrLen`; the slice `result[:arrLen]` read back holds what the kernel wrote at the
grid indices (the buffer `r` itself is allocated with `sizeofUint` bytes); the final loop
adds these values.  The value is `none` when it depends on indeterminate memory. -/
def dotProductGPU {α : Type} [Add α] [Mul α] [Zero α]
    (dataA dataB : List α) : Except GoPanic (Option α) :=
  match newBufferWithBytes dataA sizeofSlice, newBufferWithBytes dataB sizeofSlice with
  | .ok b1, .ok b2 =>
    let result := (List.range arrLen).map (kernel b1 b2)
    .ok (result.foldl (fun dotProductResult value =>
      match dotProductResult, value with
      | some r, some v => some (r + v)
      | _, _ => none) (some 0))
  | .error p, _ => .error p
  | _, .error p => .error p

/-! ## Rounded arithmetic: `float32` on integer values -/

/-- Number of low-order bits to drop so that `n` fits the 24-bit significand of a
`float32`; the first argument bounds the exponent range searched. -/
def dropBits : Nat → Nat → Nat
  | 0, _ => 0
  | b + 1, n => if n < 2 ^ 24 then 0 else dropBits b (n / 2) + 1

/-- Round a natural number to the nearest one with a 24-bit significand, ties to even. -/
def roundNat (n : Nat) : Nat :=
  let sh := dropBits 104 n
  let q := n / 2 ^ sh
  let r := n % 2 ^ sh
  if 2 * r < 2 ^ sh then q * 2 ^ sh
  else if 2 * r = 2 ^ sh ∧ q % 2 = 0 then q * 2 ^ sh
  else (q + 1) * 2 ^ sh

/-- An integer-valued `float32` below the overflow threshold `2 ^ 128`. -/
structure F32 where
  val : Int
  deriving DecidableEq, Repr

/-- IEEE 754 rounding (to nearest, ties to even) of an exact integer result. -/
def F32.round (x : Int) : F32 := ⟨x.sign * (roundNat x.natAbs : Int)⟩

instance : Add F32 := ⟨fun a b => F32.round (a.val + b.val)⟩

instance : Mul F32 := ⟨fun a b => F32.round (a.val * b.val)⟩

instance : Zero F32 := ⟨⟨0⟩⟩

deriving instance DecidableEq for Except

/-! ## Closed forms used in the proofs -/

/-- The clamped worker count as a natural number. -/
def workerCount (size : Nat) (gn : Int) : Nat := min gn.toNat size

/-- The chunk size `ceil(size / n)` as a natural number. -/
def ceilDiv (size n : Nat) : Nat := (size + n - 1) / n

/-- The closed form of chunk `i`: `[i * c, min ((i + 1) * c, size))`. -/
def chunkNat (size c i : Nat) : Int × Int :=
  (((i * c : Nat) : Int), ((min ((i + 1) * c) size : Nat) : Int))

/-- The product `s1[j] * s2[j]` at an index known to be in range. -/
def prodAt {α : Type} [Mul α] [Zero α] (s1 s2 : List α) (j : Int) : α :=
  s1.getD j.toNat 0 * s2.getD j.toNat 0

/-- The partial result stored by the goroutine of chunk `i` (and `0` for an index that is
no chunk or whose goroutine panics). -/
def partialOf {α : Type} [Add α] [Mul α] [Zero α] (s1 s2 : List α) (cs : List (Int × Int))
    (i : Nat) : α :=
  match cs[i]? with
  | some c =>
    match worker s1 s2 c.1 c.2 with
    | .ok v => v
    | .error _ => 0
  | none => 0

/-! ## Arithmetic of the chunk computation -/

theorem wrapInt_eq {x : Int} (h1 : -2 ^ 63 ≤ x) (h2 : x < 2 ^ 63) : wrapInt x = x := by
  unfold wrapInt
  omega

theorem clampWorkers_eq (size : Nat) (gn : Int) (hgn : 1 ≤ gn) :
    clampWorkers (size : Int) gn = ((workerCount size gn : Nat) : Int) := by
  unfold clampWorkers workerCount
  split <;> omega

theorem workerCount_pos (size : Nat) (gn : Int) (hsize : 1 ≤ size) (hgn : 1 ≤ gn) :
    1 ≤ workerCount size gn := by
  unfold workerCount
  omega

theorem workerCount_le (size : Nat) (gn : Int) : workerCount size gn ≤ size := by
  unfold workerCount
  omega

theorem ceilDiv_pos {size n : Nat} (hn : 1 ≤ n) (hle : n ≤ size) : 1 ≤ ceilDiv size n := by
  unfold ceilDiv
  exact (Nat.one_le_div_iff (by omega)).2 (by omega)

theorem ceilDiv_mul_ge (size : Nat) {n : Nat} (hn : 1 ≤ n) : size ≤ n * ceilDiv size n := by
  unfold ceilDiv
  have h1 := Nat.div_add_mod (size + n - 1) n
  have h2 := Nat.mod_lt (size + n - 1) (show 0 < n by omega)
  omega

theorem ceilDiv_mul_lt (size : Nat) {n : Nat} (hn : 1 ≤ n) : n * ceilDiv size n < size + n := by
  unfold ceilDiv
  have h1 := Nat.div_add_mod (size + n - 1) n
  omega

theorem wrapInt_natCast {m : Nat} (h : m < 2 ^ 63) : wrapInt (m : Int) = (m : Int) := by
  unfold wrapInt
  omega

theorem chunkSize_eq {size n : Nat} (hn : 1 ≤ n) (hle : n ≤ size) (hb : size < 2 ^ 62) :
    chunkSize (size : Int) (n : Int) = .ok ((ceilDiv size n : Nat) : Int) := by
  unfold chunkSize intDiv intSub intAdd ceilDiv
  have e1 : wrapInt ((size : Int) + n) = ((size + n : Nat) : Int) := by
    rw [← Nat.cast_add, wrapInt_natCast (by omega)]
  have e2 : wrapInt (((size + n : Nat) : Int) - 1) = ((size + n - 1 : Nat) : Int) := by
    rw [wrapInt_eq] <;> omega
  have hd : (size + n - 1) / n ≤ size + n - 1 := Nat.div_le_self _ _
  rw [e1, e2, if_neg (by omega), ← Int.ofNat_tdiv, wrapInt_natCast (by omega)]

theorem chunkBounds_eq {size n i : Nat} (hn : 1 ≤ n) (hb : size < 2 ^ 62)
    (hle : n ≤ size) (hi : i < n) :
    chunkBounds (size : Int) ((ceilDiv size n : Nat) : Int) (i : Int)
      = chunkNat size (ceilDiv size n) i := by
  have hlt := ceilDiv_mul_lt size hn
  have h1 : (i + 1) * ceilDiv size n ≤ n * ceilDiv size n :=
    Nat.mul_le_mul_right _ (by omega)
  have h0 : i * ceilDiv size n ≤ (i + 1) * ceilDiv size n :=
    Nat.mul_le_mul_right _ (by omega)
  unfold chunkBounds chunkNat intMul intAdd
  have e1 : wrapInt ((i : Int) * (ceilDiv size n : Nat)) = ((i * ceilDiv size n : Nat) : Int) := by
    rw [← Nat.cast_mul, wrapInt_natCast (by omega)]
  have e2 : wrapInt ((i : Int) + 1) = ((i + 1 : Nat) : Int) := by
    rw [wrapInt_eq] <;> omega
  have e3 : wrapInt (((i + 1 : Nat) : Int) * (ceilDiv size n : Nat))
      = (((i + 1) * ceilDiv size n : Nat) : Int) := by
    rw [← Nat.cast_mul, wrapInt_natCast (by omega)]
  simp only [e1, e2, e3]
  refine Prod.ext rfl ?_
  show (if _ then _ else _) = _
  clear e1 e2 e3 h0 h1 hlt
  generalize (i + 1) * ceilDiv size n = m
  rcases Nat.le_total m size with h | h
  · rw [Nat.min_eq_left h, if_neg (by omega)]
  · rw [Nat.min_eq_right h]
    split
    · rfl
    · omega

theorem chunks_eq (size : Nat) (gn : Int) (hsize : 1 ≤ size) (hb : size < 2 ^ 62)
    (hgn : 1 ≤ gn) :
    chunks (size : Int) gn
      = .ok ((List.range (workerCount size gn)).map
          (chunkNat size (ceilDiv size (workerCount size gn)))) := by
  have hn := workerCount_pos size gn hsize hgn
  have hle := workerCount_le size gn
  unfold chunks
  simp only [clampWorkers_eq size gn hgn, chunkSize_eq hn hle hb, Int.toNat_ofNat]
  refine congrArg Except.ok (List.map_congr_left ?_)
  intro i hi
  exact chunkBounds_eq hn hb hle (List.mem_range.1 hi)

theorem succ_mul_le_of_lt (c : Nat) {a b : Nat} (hab : a < b) : a * c + c ≤ b * c := by
  have h := Nat.mul_le_mul_right c (show a + 1 ≤ b from hab)
  rwa [Nat.succ_mul] at h

theorem chunkNat_disjoint {size c a b : Nat} (hab : a < b) (j : Int) :
    ¬ (((chunkNat size c a).1 ≤ j ∧ j < (chunkNat size c a).2)
      ∧ ((chunkNat size c b).1 ≤ j ∧ j < (chunkNat size c b).2)) := by
  have h := succ_mul_le_of_lt c hab
  have hm : min ((a + 1) * c) size ≤ (a + 1) * c := Nat.min_le_left _ _
  simp only [chunkNat]
  generalize min ((b + 1) * c) size = eb
  generalize min ((a + 1) * c) size = ea at hm
  rw [Nat.succ_mul] at hm
  generalize a * c = sa at h hm
  generalize b * c = sb at h
  omega

theorem chunkNat_start_lt {size c a b : Nat} (hc : 1 ≤ c) (hab : a < b) :
    (chunkNat size c a).1 < (chunkNat size c b).1 := by
  have h := succ_mul_le_of_lt c hab
  simp only [chunkNat]
  generalize a * c = sa at h
  generalize b * c = sb at h
  omega

theorem chunkNat_cover {size n c : Nat} (hc : 1 ≤ c) (hcov : size ≤ n * c) (j : Int) :
    (∃ ch ∈ (List.range n).map (chunkNat size c), ch.1 ≤ j ∧ j < ch.2)
      ↔ (0 ≤ j ∧ j < (size : Int)) := by
  constructor
  · rintro ⟨ch, hmem, h1, h2⟩
    obtain ⟨i, -, rfl⟩ := List.mem_map.1 hmem
    have hm : min ((i + 1) * c) size ≤ size := Nat.min_le_right _ _
    simp only [chunkNat] at h1 h2
    generalize min ((i + 1) * c) size = e at hm h2
    generalize i * c = st at h1
    omega
  · rintro ⟨h0, h1⟩
    obtain ⟨k, rfl⟩ := Int.eq_ofNat_of_zero_le h0
    have hk : k < size := by omega
    have hi : k / c < n := (Nat.div_lt_iff_lt_mul (by omega)).2 (by omega)
    refine ⟨chunkNat size c (k / c), List.mem_map.2 ⟨k / c, List.mem_range.2 hi, rfl⟩, ?_, ?_⟩
    · have h := Nat.div_mul_le_self k c
      simp only [chunkNat]
      generalize k / c * c = st at h
      omega
    · have h : k < (k / c + 1) * c := by
        have h2 := Nat.div_add_mod k c
        have h3 := Nat.mod_lt k (show 0 < c by omega)
        rw [Nat.succ_mul, Nat.mul_comm]
        omega
      have hm : k < min ((k / c + 1) * c) size := Nat.lt_min.2 ⟨h, hk⟩
      simp only [chunkNat]
      generalize min ((k / c + 1) * c) size = e at hm
      omega

/-! ## Claims about the chunk partition -/

/-- C2: for `size >= 1` (a slice length, hence below `2^62`) and `workerCount >= 1`, the
chunks computed by `dotProductCPU` have pairwise disjoint index sets
`{j | start <= j < end}`, the union of these sets is exactly `[0, size)`, and the chunks are
listed in strictly ascending order of their start index. -/
theorem chunks_partition (size : Nat) (gn : Int) (hsize : 1 ≤ size) (hb : size < 2 ^ 62)
    (hgn : 1 ≤ gn) :
    ∃ cs, chunks (size : Int) gn = .ok cs
      ∧ cs.length = (clampWorkers (size : Int) gn).toNat
      ∧ cs.Pairwise (fun a b => ∀ j : Int, ¬ ((a.1 ≤ j ∧ j < a.2) ∧ (b.1 ≤ j ∧ j < b.2)))
      ∧ (∀ j : Int, (∃ c ∈ cs, c.1 ≤ j ∧ j < c.2) ↔ (0 ≤ j ∧ j < (size : Int)))
      ∧ cs.Pairwise (fun a b => a.1 < b.1) := by
  have hn := workerCount_pos size gn hsize hgn
  have hle := workerCount_le size gn
  have hc := ceilDiv_pos hn hle
  refine ⟨_, chunks_eq size gn hsize hb hgn, ?_, ?_, ?_, ?_⟩
  · rw [clampWorkers_eq size gn hgn]
    simp
  · rw [List.pairwise_map]
    exact (List.pairwise_lt_range _).imp fun hab j => chunkNat_disjoint hab j
  · exact chunkNat_cover hc (ceilDiv_mul_ge size hn)
  · rw [List.pairwise_map]
    exact (List.pairwise_lt_range _).imp fun hab => chunkNat_start_lt hc hab

theorem chunks_partition_witness :
    ∃ cs, chunks ((4 : Nat) : Int) 2 = .ok cs
      ∧ cs.length = (clampWorkers ((4 : Nat) : Int) 2).toNat
      ∧ cs.Pairwise (fun a b => ∀ j : Int, ¬ ((a.1 ≤ j ∧ j < a.2) ∧ (b.1 ≤ j ∧ j < b.2)))
      ∧ (∀ j : Int, (∃ c ∈ cs, c.1 ≤ j ∧ j < c.2) ↔ (0 ≤ j ∧ j < ((4 : Nat) : Int)))
      ∧ cs.Pairwise (fun a b => a.1 < b.1) :=
  chunks_partition 4 2 (by decide) (by decide) (by decide)

/-! ## The accumulation loop -/

theorem index_ok {α : Type} [Zero α] {s : List α} {j : Int} (h0 : 0 ≤ j)
    (h1 : j < (s.length : Int)) : index s j = .ok (s.getD j.toNat 0) := by
  have h : j.toNat < s.length := by omega
  simp [index, h0, List.getElem?_eq_getElem h, List.getD_eq_getElem s 0 h]

theorem index_error {α : Type} {s : List α} {j : Int}
    (h : ¬ (0 ≤ j ∧ j < (s.length : Int))) : index s j = .error .indexOutOfRange := by
  unfold index
  split
  · next h0 =>
    have hlen : s.length ≤ j.toNat := by omega
    rw [List.getElem?_eq_none hlen]
  · rfl

theorem mulAddLoop_ok {α : Type} [Add α] [Mul α] [Zero α] (s1 s2 : List α) :
    ∀ (js : List Int) (acc : α),
      (∀ j ∈ js, 0 ≤ j ∧ j < (s1.length : Int) ∧ j < (s2.length : Int)) →
      mulAddLoop s1 s2 js acc = .ok (js.foldl (fun a j => a + prodAt s1 s2 j) acc)
  | [], _, _ => rfl
  | j :: js, acc, h => by
    obtain ⟨h0, h1, h2⟩ := h j (List.mem_cons_self _ _)
    rw [mulAddLoop, index_ok h0 h1, index_ok h0 h2]
    exact mulAddLoop_ok s1 s2 js _ fun k hk => h k (List.mem_cons_of_mem _ hk)

theorem mulAddLoop_error {α : Type} [Add α] [Mul α] [Zero α] (s1 s2 : List α) :
    ∀ (js : List Int) (acc : α),
      (∃ j ∈ js, ¬ (0 ≤ j ∧ j < (s1.length : Int) ∧ j < (s2.length : Int))) →
      mulAddLoop s1 s2 js acc = .error .indexOutOfRange
  | [], _, h => by simp at h
  | j :: js, acc, h => by
    by_cases hj : 0 ≤ j ∧ j < (s1.length : Int) ∧ j < (s2.length : Int)
    · obtain ⟨h0, h1, h2⟩ := hj
      rw [mulAddLoop, index_ok h0 h1, index_ok h0 h2]
      refine mulAddLoop_error s1 s2 js _ ?_
      obtain ⟨k, hk, hbad⟩ := h
      rcases List.mem_cons.1 hk with rfl | hk
      · exact absurd ⟨h0, h1, h2⟩ hbad
      · exact ⟨k, hk, hbad⟩
    · rw [mulAddLoop]
      by_cases h1 : 0 ≤ j ∧ j < (s1.length : Int)
      · have h2 : ¬ (0 ≤ j ∧ j < (s2.length : Int)) := fun h2 => hj ⟨h1.1, h1.2, h2.2⟩
        rw [index_ok h1.1 h1.2, index_error h2]
      · rw [index_error h1]
        cases index s2 j <;> rfl

/-- Every panic of the accumulation loop is an index-out-of-range panic. -/
theorem mulAddLoop_panic {α : Type} [Add α] [Mul α] [Zero α]
    (s1 s2 : List α) (js : List Int) (acc : α) (p : GoPanic)
    (h : mulAddLoop s1 s2 js acc = .error p) : p = .indexOutOfRange := by
  by_cases hall : ∀ j ∈ js, 0 ≤ j ∧ j < (s1.length : Int) ∧ j < (s2.length : Int)
  · rw [mulAddLoop_ok s1 s2 js acc hall] at h
    cases h
  · have hex : ∃ j ∈ js, ¬ (0 ≤ j ∧ j < (s1.length : Int) ∧ j < (s2.length : Int)) := by
      by_contra hne
      exact hall fun j hj => by_contra fun hbad => hne ⟨j, hj, hbad⟩
    rw [mulAddLoop_error s1 s2 js acc hex] at h
    cases h
    rfl

/-! ## The results map and the goroutines -/

theorem mapLoad_filter_ne {α : Type} (m : List (Nat × α)) {i k : Nat} (hki : k ≠ i) :
    mapLoad (m.filter fun e => e.1 != i) k = mapLoad m k := by
  unfold mapLoad
  induction m with
  | nil => rfl
  | cons e m ih =>
    by_cases hei : e.1 = i
    · have hek : ¬ e.1 = k := fun h => hki (h ▸ hei)
      rw [List.filter_cons_of_neg (by simpa using hei),
        List.find?_cons_of_neg _ (by simpa using hek)]
      exact ih
    · rw [List.filter_cons_of_pos (by simpa using hei)]
      by_cases hek : e.1 = k
      · rw [List.find?_cons_of_pos _ (by simpa using hek),
          List.find?_cons_of_pos _ (by simpa using hek)]
      · rw [List.find?_cons_of_neg _ (by simpa using hek),
          List.find?_cons_of_neg _ (by simpa using hek)]
        exact ih

theorem mapLoad_mapStore {α : Type} (m : List (Nat × α)) (i k : Nat) (v : α) :
    mapLoad (mapStore m i v) k = if k = i then some v else mapLoad m k := by
  by_cases hki : k = i
  · subst hki
    simp [mapStore, mapLoad]
  · rw [if_neg hki, ← mapLoad_filter_ne m hki]
    have hik : ¬ i = k := fun h => hki h.symm
    simp [mapStore, mapLoad, List.find?_cons, hik]

theorem sumResults_congr {α : Type} [Add α] [Zero α]
    {m m' : List (Nat × α)} (h : ∀ k, mapLoad m k = mapLoad m' k)
    (iter : List Nat) : sumResults m iter = sumResults m' iter := by
  unfold sumResults
  congr 1
  funext result k
  rw [h k]

/-- When every goroutine returns, the final map holds under each key `k` of `sched` that is
a chunk index the partial result of chunk `k`, and nothing else changes. -/
theorem runWorkers_ok {α : Type} [Add α] [Mul α] [Zero α]
    (s1 s2 : List α) (cs : List (Int × Int)) (p : Nat → α)
    (hw : ∀ i c, cs[i]? = some c → worker s1 s2 c.1 c.2 = .ok (p i)) :
    ∀ (sched : List Nat) (m : List (Nat × α)),
      ∃ m', runWorkers s1 s2 cs sched m = .ok m'
        ∧ ∀ k, mapLoad m' k = if k ∈ sched ∧ k < cs.length then some (p k) else mapLoad m k
  | [], m => ⟨m, rfl, fun k => by simp⟩
  | i :: rest, m => by
    rw [runWorkers]
    cases hci : cs[i]? with
    | none =>
      obtain ⟨m', hrun, hload⟩ := runWorkers_ok s1 s2 cs p hw rest m
      refine ⟨m', hrun, fun k => ?_⟩
      rw [hload k]
      have hi : cs.length ≤ i := List.getElem?_eq_none_iff.1 hci
      by_cases hk : k < cs.length
      · have hne : k ≠ i := by omega
        simp [hk, hne]
      · simp [hk]
    | some c =>
      simp only [hw i c hci]
      obtain ⟨m', hrun, hload⟩ := runWorkers_ok s1 s2 cs p hw rest (mapStore m i (p i))
      refine ⟨m', hrun, fun k => ?_⟩
      rw [hload k, mapLoad_mapStore]
      have hi : i < cs.length := by
        by_contra hge
        rw [List.getElem?_eq_none (by omega)] at hci
        cases hci
      by_cases hki : k = i
      · subst hki
        simp [hi]
      · simp [hki]

/-- When some goroutine of the schedule panics, the program panics, and the panic is an
index-out-of-range panic. -/
theorem runWorkers_error {α : Type} [Add α] [Mul α] [Zero α]
    (s1 s2 : List α) (cs : List (Int × Int)) :
    ∀ (sched : List Nat) (m : List (Nat × α)),
      (∃ i ∈ sched, ∃ c q, cs[i]? = some c ∧ worker s1 s2 c.1 c.2 = .error q) →
      runWorkers s1 s2 cs sched m = .error .indexOutOfRange
  | [], _, h => by simp at h
  | i :: rest, m, h => by
    rw [runWorkers]
    cases hci : cs[i]? with
    | none =>
      refine runWorkers_error s1 s2 cs rest m ?_
      obtain ⟨k, hk, c, q, hkc, hq⟩ := h
      rcases List.mem_cons.1 hk with rfl | hk
      · rw [hci] at hkc
        cases hkc
      · exact ⟨k, hk, c, q, hkc, hq⟩
    | some c =>
      cases hwc : worker s1 s2 c.1 c.2 with
      | error q =>
        have hq : q = .indexOutOfRange := mulAddLoop_panic s1 s2 _ _ q hwc
        subst hq
        simp only [hwc]
      | ok v =>
        simp only [hwc]
        refine runWorkers_error s1 s2 cs rest _ ?_
        obtain ⟨k, hk, c', q, hkc, hq⟩ := h
        rcases List.mem_cons.1 hk with rfl | hk
        · rw [hci] at hkc
          cases hkc
          rw [hwc] at hq
          cases hq
        · exact ⟨k, hk, c', q, hkc, hq⟩

/-! ## `dotProductCPU` as a function of the partial results -/

theorem dotProductCPU_ok {α : Type} [Add α] [Mul α] [Zero α]
    (s1 s2 : List α) (gn : Int) (cs : List (Int × Int)) (p : Nat → α)
    (hcs : chunks (s1.length : Int) gn = .ok cs)
    (hw : ∀ i c, cs[i]? = some c → worker s1 s2 c.1 c.2 = .ok (p i))
    (sched iter : List Nat) (hs : ∀ k, k < cs.length → k ∈ sched)
    (hi : ∀ k ∈ iter, k < cs.length) :
    dotProductCPU sched iter s1 s2 gn = .ok (iter.foldl (fun result k => result + p k) 0) := by
  obtain ⟨m', hrun, hload⟩ := runWorkers_ok s1 s2 cs p hw sched []
  unfold dotProductCPU
  simp only [hcs, hrun]
  refine congrArg Except.ok ?_
  unfold sumResults
  refine List.foldl_ext _ _ _ fun result k hk => ?_
  have hk' := hi k hk
  rw [hload k, if_pos ⟨hs k hk', hk'⟩]

theorem dotProductCPU_error {α : Type} [Add α] [Mul α] [Zero α]
    (s1 s2 : List α) (gn : Int) (cs : List (Int × Int))
    (hcs : chunks (s1.length : Int) gn = .ok cs)
    (hbad : ∃ (i : Nat) (c : Int × Int) (q : GoPanic),
      cs[i]? = some c ∧ worker s1 s2 c.1 c.2 = .error q)
    (sched iter : List Nat) (hs : ∀ k, k < cs.length → k ∈ sched) :
    dotProductCPU sched iter s1 s2 gn = .error .indexOutOfRange := by
  obtain ⟨i, c, q, hic, hq⟩ := hbad
  have hi : i < cs.length := by
    by_contra hge
    rw [List.getElem?_eq_none (by omega)] at hic
    cases hic
  unfold dotProductCPU
  simp only [hcs, runWorkers_error s1 s2 cs sched [] ⟨i, hs i hi, c, q, hic, hq⟩]

theorem workersLaunched_eq {size gn : Int} {cs : List (Int × Int)}
    (hcs : chunks size gn = .ok cs) : workersLaunched size gn = cs.length := by
  unfold workersLaunched
  rw [hcs]

theorem dotProductCPU_sched {α : Type} [Add α] [Mul α] [Zero α]
    (s1 s2 : List α) (gn : Int) (sched sched' iter : List Nat)
    (hs : sched.Perm (List.range (workersLaunched (s1.length : Int) gn)))
    (hs' : sched'.Perm (List.range (workersLaunched (s1.length : Int) gn))) :
    dotProductCPU sched iter s1 s2 gn = dotProductCPU sched' iter s1 s2 gn := by
  cases hcs : chunks (s1.length : Int) gn with
  | error q => simp only [dotProductCPU, hcs]
  | ok cs =>
    rw [workersLaunched_eq hcs] at hs hs'
    have hmem : ∀ k, k < cs.length → k ∈ sched :=
      fun k hk => hs.mem_iff.2 (List.mem_range.2 hk)
    have hmem' : ∀ k, k < cs.length → k ∈ sched' :=
      fun k hk => hs'.mem_iff.2 (List.mem_range.2 hk)
    by_cases hbad : ∃ (i : Nat) (c : Int × Int) (q : GoPanic),
        cs[i]? = some c ∧ worker s1 s2 c.1 c.2 = .error q
    · rw [dotProductCPU_error s1 s2 gn cs hcs hbad sched iter hmem,
        dotProductCPU_error s1 s2 gn cs hcs hbad sched' iter hmem']
    · have hw : ∀ i c, cs[i]? = some c →
          worker s1 s2 c.1 c.2 = .ok (partialOf s1 s2 cs i) := by
        intro i c hic
        cases hwc : worker s1 s2 c.1 c.2 with
        | error q => exact absurd ⟨i, c, q, hic, hwc⟩ hbad
        | ok v => simp only [partialOf, hic, hwc]
      obtain ⟨m, hrun, hload⟩ := runWorkers_ok s1 s2 cs _ hw sched []
      obtain ⟨m', hrun', hload'⟩ := runWorkers_ok s1 s2 cs _ hw sched' []
      unfold dotProductCPU
      simp only [hcs, hrun, hrun']
      refine congrArg Except.ok (sumResults_congr (fun k => ?_) iter)
      rw [hload k, hload' k]
      by_cases hk : k < cs.length
      · rw [if_pos ⟨hmem k hk, hk⟩, if_pos ⟨hmem' k hk, hk⟩]
      · rw [if_neg (fun h => hk h.2), if_neg (fun h => hk h.2)]

/-! ## Claims about aggregation -/

/-- C8 (amended): the value returned by `dotProductCPU` does not depend on the order in
which the goroutines complete; it is the left-to-right sum of the per-chunk partial results
taken in the order in which `range results` visits the map; when addition satisfies
`(a + b) + c = (a + c) + b` (exact arithmetic) this is the sum in ascending chunk-index order
`0, 1, ..., gn - 1`, whatever the iteration order of the map. -/
theorem dotProductCPU_aggregation {α : Type} [Add α] [Mul α] [Zero α] (s1 s2 : List α)
    (gn : Int) (sched sched' iter : List Nat)
    (hs : sched.Perm (List.range (workersLaunched (s1.length : Int) gn)))
    (hs' : sched'.Perm (List.range (workersLaunched (s1.length : Int) gn)))
    (hi : iter.Perm (List.range (workersLaunched (s1.length : Int) gn))) :
    dotProductCPU sched iter s1 s2 gn = dotProductCPU sched' iter s1 s2 gn
      ∧ ∀ (cs : List (Int × Int)) (p : Nat → α), chunks (s1.length : Int) gn = .ok cs →
          (∀ i c, cs[i]? = some c → worker s1 s2 c.1 c.2 = .ok (p i)) →
          dotProductCPU sched iter s1 s2 gn
              = .ok (iter.foldl (fun result k => result + p k) 0)
            ∧ ((∀ a b c : α, a + b + c = a + c + b) →
                dotProductCPU sched iter s1 s2 gn
                  = .ok ((List.range cs.length).foldl (fun result k => result + p k) 0)) := by
  refine ⟨dotProductCPU_sched s1 s2 gn sched sched' iter hs hs', fun cs p hcs hw => ?_⟩
  rw [workersLaunched_eq hcs] at hs hi
  have hval := dotProductCPU_ok s1 s2 gn cs p hcs hw sched iter
    (fun k hk => hs.mem_iff.2 (List.mem_range.2 hk))
    (fun k hk => List.mem_range.1 (hi.mem_iff.1 hk))
  refine ⟨hval, fun hcomm => ?_⟩
  rw [hval]
  exact congrArg Except.ok (hi.foldl_eq' (fun x _ y _ z => hcomm z (p x) (p y)) 0)

theorem dotProductCPU_aggregation_witness :
    dotProductCPU [1, 0] [1, 0] [1, 2, 3, 4] [5, 6, 7, (8 : Int)] 2
        = dotProductCPU [0, 1] [1, 0] [1, 2, 3, 4] [5, 6, 7, (8 : Int)] 2
      ∧ dotProductCPU [1, 0] [1, 0] [1, 2, 3, 4] [5, 6, 7, (8 : Int)] 2
        = .ok ([1, 0].foldl (fun result k => result + if k = 0 then 17 else 53) 0)
      ∧ dotProductCPU [1, 0] [1, 0] [1, 2, 3, 4] [5, 6, 7, (8 : Int)] 2
        = .ok ([0, 1].foldl (fun result k => result + if k = 0 then 17 else 53) 0) := by
  have h := dotProductCPU_aggregation [1, 2, 3, 4] [5, 6, 7, (8 : Int)] 2 [1, 0] [0, 1] [1, 0]
    (by decide) (by decide) (by decide)
  have hcs : chunks (([1, 2, 3, (4 : Int)].length : Nat) : Int) 2 = .ok [(0, 2), (2, 4)] := by
    decide
  have hw : ∀ (i : Nat) (c : Int × Int), [((0 : Int), (2 : Int)), (2, 4)][i]? = some c →
      worker [1, 2, 3, 4] [5, 6, 7, (8 : Int)] c.1 c.2
        = .ok ((fun k : Nat => if k = 0 then (17 : Int) else 53) i) := by
    intro i c hic
    match i, hic with
    | 0, hic => cases hic; decide
    | 1, hic => cases hic; decide
    | n + 2, hic => simp at hic
  have h2 := h.2 [(0, 2), (2, 4)] (fun k => if k = 0 then 17 else 53) hcs hw
  exact ⟨h.1, h2.1, h2.2 fun a b c => by omega⟩

/-- C8 (counterexample): with `float32` rounding, two runs of `dotProductCPU` on the same
vectors `[2^24, 1, 1]`, `[1, 1, 1]` and worker count `3` that differ only in the order in
which `range results` visits the map return `2^24` and `2^24 + 2`. -/
theorem dotProductCPU_order_counterexample :
    dotProductCPU [0, 1, 2] [0, 1, 2] [(⟨16777216⟩ : F32), ⟨1⟩, ⟨1⟩] [⟨1⟩, ⟨1⟩, ⟨1⟩] 3
        = .ok ⟨16777216⟩
      ∧ dotProductCPU [0, 1, 2] [2, 1, 0] [(⟨16777216⟩ : F32), ⟨1⟩, ⟨1⟩] [⟨1⟩, ⟨1⟩, ⟨1⟩] 3
        = .ok ⟨16777218⟩ := by
  decide

/-! ## Claims about degenerate inputs -/

theorem runWorkers_nil {α : Type} [Add α] [Mul α] [Zero α] (s1 s2 : List α) :
    ∀ (sched : List Nat) (m : List (Nat × α)), runWorkers s1 s2 [] sched m = .ok m
  | [], _ => rfl
  | i :: rest, m => by
    rw [runWorkers]
    exact runWorkers_nil s1 s2 rest m

theorem sumResults_nil {α : Type} [Add α] [Zero α]
    (iter : List Nat) : sumResults ([] : List (Nat × α)) iter = 0 := by
  unfold sumResults
  induction iter with
  | nil => rfl
  | cons k iter ih => exact ih

theorem chunks_zero_divisor (size gn : Int) (h : clampWorkers size gn = 0) :
    chunks size gn = .error .divideByZero := by
  simp [chunks, chunkSize, intDiv, h]

theorem chunks_negative (size gn : Int) (hsize : 1 ≤ size) (hgn : gn < 0) :
    chunks size gn = .ok [] := by
  have hc : clampWorkers size gn = gn := by
    unfold clampWorkers
    rw [if_neg (by omega)]
  have hne : gn ≠ 0 := by omega
  have ht : gn.toNat = 0 := by omega
  simp [chunks, chunkSize, intDiv, hc, hne, ht]

/-- C4 (the code at the failing input): on two empty vectors `dotProductCPU` clamps the
worker count to `0` and panics in the chunk-size division, for every worker count
`gn >= 0`; no goroutine has been launched; `dotProductNaive` returns `0`. -/
theorem dotProductCPU_empty {α : Type} [Add α] [Mul α] [Zero α] (sched iter : List Nat)
    (gn : Int) (hgn : 0 ≤ gn) :
    dotProductCPU sched iter ([] : List α) [] gn = .error .divideByZero
      ∧ workersLaunched (([] : List α).length : Int) gn = 0
      ∧ dotProductNaive ([] : List α) [] = .ok 0 := by
  have hc : clampWorkers ((([] : List α).length : Nat) : Int) gn = 0 := by
    unfold clampWorkers
    rw [if_pos (by simpa using hgn)]
    rfl
  have hcs := chunks_zero_divisor _ _ hc
  refine ⟨?_, ?_, rfl⟩
  · unfold dotProductCPU
    rw [hcs]
  · unfold workersLaunched
    rw [hcs]

theorem dotProductCPU_empty_witness :
    dotProductCPU [] [] ([] : List Int) [] 200 = .error .divideByZero
      ∧ workersLaunched (([] : List Int).length : Int) 200 = 0
      ∧ dotProductNaive ([] : List Int) [] = .ok 0 :=
  dotProductCPU_empty [] [] 200 (by decide)

/-- C6 (counterexample): with the negative worker count `-1` on the non-empty vectors
`[1, 2]`, `[3, 4]`, `dotProductCPU` returns the scalar `0`. -/
theorem dotProductCPU_negative_counterexample :
    dotProductCPU [] [] [1, 2] [3, (4 : Int)] (-1) = .ok 0 := by
  decide

/-- C6 (amended): on a non-empty `s1`, a worker count `gn <= 0` launches no goroutine; with
`gn = 0` `dotProductCPU` panics in the chunk-size division (integer division by zero); with
`gn < 0` it returns `0`. -/
theorem dotProductCPU_nonpositive {α : Type} [Add α] [Mul α] [Zero α] (sched iter : List Nat)
    (s1 s2 : List α) (gn : Int) (hne : 1 ≤ s1.length) (hgn : gn ≤ 0) :
    workersLaunched (s1.length : Int) gn = 0
      ∧ (gn = 0 → dotProductCPU sched iter s1 s2 gn = .error .divideByZero)
      ∧ (gn < 0 → dotProductCPU sched iter s1 s2 gn = .ok 0) := by
  have hsize : (1 : Int) ≤ (s1.length : Int) := by omega
  rcases (show gn < 0 ∨ gn = 0 by omega) with hlt | heq
  · have hcs := chunks_negative (s1.length : Int) gn hsize hlt
    refine ⟨?_, fun h0 => absurd h0 (by omega), fun _ => ?_⟩
    · unfold workersLaunched
      rw [hcs]
      rfl
    · unfold dotProductCPU
      simp only [hcs, runWorkers_nil, sumResults_nil]
  · have hc : clampWorkers (s1.length : Int) gn = 0 := by
      unfold clampWorkers
      rw [if_neg (by omega)]
      exact heq
    have hcs := chunks_zero_divisor _ _ hc
    refine ⟨?_, fun _ => ?_, fun h0 => absurd h0 (by omega)⟩
    · unfold workersLaunched
      rw [hcs]
    · unfold dotProductCPU
      rw [hcs]

theorem dotProductCPU_nonpositive_witness :
    workersLaunched (([1, 2] : List Int).length : Int) 0 = 0
      ∧ dotProductCPU [] [] [1, 2] [3, (4 : Int)] 0 = .error .divideByZero
      ∧ dotProductCPU [] [] [1, 2] [3, (4 : Int)] (-7) = .ok 0 :=
  ⟨(dotProductCPU_nonpositive [] [] [1, 2] [3, (4 : Int)] 0 (by decide) (by decide)).1,
    (dotProductCPU_nonpositive [] [] [1, 2] [3, (4 : Int)] 0 (by decide) (by decide)).2.1 rfl,
    (dotProductCPU_nonpositive [] [] [1, 2] [3, (4 : Int)] (-7) (by decide) (by decide)).2.2
      (by decide)⟩

/-! ## Claims about `dotProductNaive` -/

theorem mem_rangeIndices {α : Type} {s1 : List α} {j : Int} :
    j ∈ rangeIndices s1 ↔ 0 ≤ j ∧ j < (s1.length : Int) := by
  unfold rangeIndices
  rw [List.mem_map]
  constructor
  · rintro ⟨i, hi, rfl⟩
    have := List.mem_range.1 hi
    omega
  · rintro ⟨h0, h1⟩
    exact ⟨j.toNat, List.mem_range.2 (by omega), by omega⟩

theorem map_prodAt_rangeIndices {α : Type} [Mul α] [Zero α]
    (s1 s2 : List α) (hlen : s1.length ≤ s2.length) :
    (rangeIndices s1).map (prodAt s1 s2) = List.zipWith (· * ·) s1 s2 := by
  apply List.ext_getElem
  · simp [rangeIndices, hlen]
  · intro i h1 h2
    have hi1 : i < s1.length := by simpa [rangeIndices] using h1
    have hi2 : i < s2.length := by omega
    simp [rangeIndices, prodAt, List.getElem?_eq_getElem hi1, List.getElem?_eq_getElem hi2]

theorem dotProductNaive_ok {α : Type} [Add α] [Mul α] [Zero α]
    (s1 s2 : List α) (hlen : s1.length ≤ s2.length) :
    dotProductNaive s1 s2 = .ok ((List.zipWith (· * ·) s1 s2).foldl (· + ·) 0) := by
  unfold dotProductNaive
  rw [mulAddLoop_ok s1 s2 _ _ fun j hj => by
    have := mem_rangeIndices.1 hj
    omega]
  rw [← map_prodAt_rangeIndices s1 s2 hlen, List.foldl_map]

theorem dotProductNaive_error {α : Type} [Add α] [Mul α] [Zero α]
    (s1 s2 : List α) (hlen : s2.length < s1.length) :
    dotProductNaive s1 s2 = .error .indexOutOfRange := by
  unfold dotProductNaive
  refine mulAddLoop_error s1 s2 _ _ ⟨(s2.length : Int), mem_rangeIndices.2 (by omega), ?_⟩
  omega

/-- C5 (counterexample): on `s1` of length 3 and `s2` of length 4, `dotProductNaive` returns
the scalar `1*4 + 2*5 + 3*6 = 32`. -/
theorem dotProductNaive_longer_counterexample :
    dotProductNaive [1, 2, 3] [4, 5, 6, (7 : Int)] = .ok 32 := by
  decide

/-- C5 (amended): `dotProductNaive(s1, s2)` fails (index out of range) whenever `s2` is
shorter than `s1`; when `s2` is at least as long as `s1` it returns the left-to-right sum of
the products `s1[i] * s2[i]` for `i < len(s1)`. -/
theorem dotProductNaive_lengths {α : Type} [Add α] [Mul α] [Zero α] (s1 s2 : List α) :
    (s2.length < s1.length → dotProductNaive s1 s2 = .error .indexOutOfRange)
      ∧ (s1.length ≤ s2.length →
          dotProductNaive s1 s2 = .ok ((List.zipWith (· * ·) s1 s2).foldl (· + ·) 0)) :=
  ⟨dotProductNaive_error s1 s2, dotProductNaive_ok s1 s2⟩

theorem dotProductNaive_lengths_witness :
    dotProductNaive [1, 2, 3] [4, (5 : Int)] = .error .indexOutOfRange
      ∧ dotProductNaive [1, 2, 3] [4, 5, 6, (7 : Int)]
          = .ok ((List.zipWith (· * ·) [1, 2, 3] [4, 5, 6, (7 : Int)]).foldl (· + ·) 0) :=
  ⟨(dotProductNaive_lengths [1, 2, 3] [4, (5 : Int)]).1 (by decide),
    (dotProductNaive_lengths [1, 2, 3] [4, 5, 6, (7 : Int)]).2 (by decide)⟩

/-! ## Claims about `dotProductGPU` -/

/-- C9 (the code at the failing input): on two vectors of length 7 the grid dispatched by
`dotProductGPU` has width `arrLen = 4`, four products are summed, and the input buffers are
created with `sizeofSlice = 24` bytes where the data take `7 * 4 = 28`; the value returned
is `1 + 2 + 3 + 4 = 10` where `dotProductNaive` returns `28`. -/
theorem dotProductGPU_fixed_size :
    dotProductGPU [1, 2, 3, 4, 5, 6, 7] [1, 1, 1, 1, 1, 1, (1 : Int)] = .ok (some 10)
      ∧ dotProductNaive [1, 2, 3, 4, 5, 6, 7] [1, 1, 1, 1, 1, 1, (1 : Int)] = .ok 28
      ∧ arrLen = 4
      ∧ sizeofSlice = 24
      ∧ [1, 2, 3, 4, 5, 6, (7 : Int)].length * sizeofFloat32 = 28 := by
  decide

/-! ## Claims about the shape of the chunks -/

theorem chunkNat_getElem? {size c n i : Nat} {ch : Int × Int}
    (h : ((List.range n).map (chunkNat size c))[i]? = some ch) :
    i < n ∧ ch = chunkNat size c i := by
  rw [List.getElem?_map] at h
  by_cases hi : i < n
  · rw [List.getElem?_range hi] at h
    exact ⟨hi, (Option.some.inj h).symm⟩
  · rw [List.getElem?_eq_none (by simpa using hi)] at h
    cases h

theorem mem_workerIndices {a b j : Int} : j ∈ workerIndices a b ↔ a ≤ j ∧ j < b := by
  unfold workerIndices
  rw [List.mem_map]
  constructor
  · rintro ⟨k, hk, rfl⟩
    have := List.mem_range.1 hk
    omega
  · rintro ⟨h0, h1⟩
    exact ⟨(j - a).toNat, List.mem_range.2 (by omega), by omega⟩

theorem workerIndices_chunkNat {size c i : Nat} {j : Int}
    (hj : j ∈ workerIndices (chunkNat size c i).1 (chunkNat size c i).2) :
    0 ≤ j ∧ j < (size : Int) := by
  have h := mem_workerIndices.1 hj
  have hm : min ((i + 1) * c) size ≤ size := Nat.min_le_right _ _
  simp only [chunkNat] at h
  generalize min ((i + 1) * c) size = e at hm h
  generalize i * c = st at h
  omega

/-- C3 (counterexample): for `size = 5` and `workerCount = 4` the chunk size is `2` and
the chunks handed to the workers are `(0,2), (2,4), (4,5), (6,5)`: the last one has
`start > end`, and the chunk `(4,5)`, which is not the last one, has one element. -/
theorem chunks_shape_counterexample :
    chunkSize 5 (clampWorkers 5 4) = .ok 2
      ∧ chunks 5 4 = .ok [(0, 2), (2, 4), (4, 5), (6, 5)]
      ∧ ¬ (∀ cs, chunks 5 4 = .ok cs → ∀ c ∈ cs, 0 ≤ c.1 ∧ c.1 ≤ c.2 ∧ c.2 ≤ 5)
      ∧ ¬ (∀ cs, chunks 5 4 = .ok cs →
            ∀ (i : Nat) (c : Int × Int), i + 1 < cs.length → cs[i]? = some c → c.2 - c.1 = 2) := by
  refine ⟨by decide, by decide, fun h => ?_, fun h => ?_⟩
  · have h1 := h [(0, 2), (2, 4), (4, 5), (6, 5)] (by decide) (6, 5) (by decide)
    exact absurd h1.2.1 (by decide)
  · have h1 := h [(0, 2), (2, 4), (4, 5), (6, 5)] (by decide) 2 (4, 5) (by decide) (by decide)
    exact absurd h1 (by decide)

/-- C3 (amended): for `size >= 1` (a slice length, hence below `2^62`) and
`workerCount >= 1`, with `chunkSize` the ceiling of `size / workerCount'` (`workerCount'`
the clamped worker count), chunk `i` handed to a worker has `start = i * chunkSize >= 0` and
`0 <= end <= size`, and `start <= end` whenever `start <= size`; it has exactly `chunkSize`
elements when `(i + 1) * chunkSize <= size`, and `end = size` otherwise; every index a
worker visits lies in `[0, size)`. -/
theorem chunks_shape (size : Nat) (gn : Int) (hsize : 1 ≤ size) (hb : size < 2 ^ 62)
    (hgn : 1 ≤ gn) :
    ∃ (cs : List (Int × Int)) (c : Int),
      chunks (size : Int) gn = .ok cs
        ∧ chunkSize (size : Int) (clampWorkers (size : Int) gn) = .ok c
        ∧ (size : Int) ≤ clampWorkers (size : Int) gn * c
        ∧ clampWorkers (size : Int) gn * c < (size : Int) + clampWorkers (size : Int) gn
        ∧ ∀ (i : Nat) (ch : Int × Int), cs[i]? = some ch →
            ch.1 = (i : Int) * c ∧ 0 ≤ ch.1 ∧ 0 ≤ ch.2 ∧ ch.2 ≤ (size : Int)
              ∧ (ch.1 ≤ (size : Int) → ch.1 ≤ ch.2)
              ∧ (((i : Int) + 1) * c ≤ (size : Int) → ch.2 - ch.1 = c)
              ∧ ((size : Int) < ((i : Int) + 1) * c → ch.2 = (size : Int))
              ∧ ∀ j ∈ workerIndices ch.1 ch.2, 0 ≤ j ∧ j < (size : Int) := by
  have hn := workerCount_pos size gn hsize hgn
  have hle := workerCount_le size gn
  refine ⟨_, ((ceilDiv size (workerCount size gn) : Nat) : Int),
    chunks_eq size gn hsize hb hgn, ?_, ?_, ?_, ?_⟩
  · rw [clampWorkers_eq size gn hgn]
    exact chunkSize_eq hn hle hb
  · rw [clampWorkers_eq size gn hgn]
    exact_mod_cast ceilDiv_mul_ge size hn
  · rw [clampWorkers_eq size gn hgn]
    exact_mod_cast ceilDiv_mul_lt size hn
  · intro i ch hic
    obtain ⟨-, rfl⟩ := chunkNat_getElem? hic
    refine ⟨?_, ?_, ?_, ?_, ?_, ?_, ?_, fun j hj => workerIndices_chunkNat hj⟩
    · simp [chunkNat]
    · simp only [chunkNat]
      omega
    · simp only [chunkNat]
      omega
    · have hm : min ((i + 1) * ceilDiv size (workerCount size gn)) size ≤ size :=
        Nat.min_le_right _ _
      simp only [chunkNat]
      exact_mod_cast hm
    · intro h
      have h' : i * ceilDiv size (workerCount size gn) ≤ size := by
        simp only [chunkNat] at h
        exact_mod_cast h
      have hstep : i * ceilDiv size (workerCount size gn)
          ≤ (i + 1) * ceilDiv size (workerCount size gn) :=
        Nat.mul_le_mul_right _ (Nat.le_succ i)
      simp only [chunkNat]
      exact_mod_cast Nat.le_min.2 ⟨hstep, h'⟩
    · intro h
      have h' : (i + 1) * ceilDiv size (workerCount size gn) ≤ size := by exact_mod_cast h
      simp only [chunkNat, Nat.min_eq_left h']
      push_cast
      ring
    · intro h
      have h' : size < (i + 1) * ceilDiv size (workerCount size gn) := by exact_mod_cast h
      simp only [chunkNat, Nat.min_eq_right (Nat.le_of_lt h')]

theorem chunks_shape_witness :
    ∃ (cs : List (Int × Int)) (c : Int),
      chunks ((5 : Nat) : Int) 4 = .ok cs
        ∧ chunkSize ((5 : Nat) : Int) (clampWorkers ((5 : Nat) : Int) 4) = .ok c
        ∧ ((5 : Nat) : Int) ≤ clampWorkers ((5 : Nat) : Int) 4 * c
        ∧ clampWorkers ((5 : Nat) : Int) 4 * c
            < ((5 : Nat) : Int) + clampWorkers ((5 : Nat) : Int) 4
        ∧ ∀ (i : Nat) (ch : Int × Int), cs[i]? = some ch →
            ch.1 = (i : Int) * c ∧ 0 ≤ ch.1 ∧ 0 ≤ ch.2 ∧ ch.2 ≤ ((5 : Nat) : Int)
              ∧ (ch.1 ≤ ((5 : Nat) : Int) → ch.1 ≤ ch.2)
              ∧ (((i : Int) + 1) * c ≤ ((5 : Nat) : Int) → ch.2 - ch.1 = c)
              ∧ (((5 : Nat) : Int) < ((i : Int) + 1) * c → ch.2 = ((5 : Nat) : Int))
              ∧ ∀ j ∈ workerIndices ch.1 ch.2, 0 ≤ j ∧ j < ((5 : Nat) : Int) :=
  chunks_shape 5 4 (by decide) (by decide) (by decide)

/-! ## Claims about the clamp and about memory safety -/

theorem ceilDiv_self {size : Nat} (hsize : 1 ≤ size) : ceilDiv size size = 1 := by
  unfold ceilDiv
  exact Nat.div_eq_of_lt_le (by omega) (by omega)

theorem workerCount_of_lt {size : Nat} {gn : Int} (h : (size : Int) ≤ gn) :
    workerCount size gn = size := by
  unfold workerCount
  omega

theorem chunks_of_le (size : Nat) (gn : Int) (hsize : 1 ≤ size) (hb : size < 2 ^ 62)
    (hgn : (size : Int) ≤ gn) :
    chunks (size : Int) gn
      = .ok ((List.range size).map fun (i : Nat) => ((i : Int), (i : Int) + 1)) := by
  rw [chunks_eq size gn hsize hb (by omega), workerCount_of_lt hgn, ceilDiv_self hsize]
  refine congrArg Except.ok (List.map_congr_left fun i hi => ?_)
  have hi' := List.mem_range.1 hi
  simp only [chunkNat, Nat.mul_one, Nat.min_eq_left (show i + 1 ≤ size by omega)]
  push_cast
  rfl

theorem dotProductCPU_iter {α : Type} [Add α] [Mul α] [Zero α]
    (s1 s2 : List α) (gn : Int) (sched iter iter' : List Nat)
    (hs : sched.Perm (List.range (workersLaunched (s1.length : Int) gn)))
    (hi : iter.Perm (List.range (workersLaunched (s1.length : Int) gn)))
    (hi' : iter'.Perm (List.range (workersLaunched (s1.length : Int) gn)))
    (hcomm : ∀ a b c : α, a + b + c = a + c + b) :
    dotProductCPU sched iter s1 s2 gn = dotProductCPU sched iter' s1 s2 gn := by
  cases hcs : chunks (s1.length : Int) gn with
  | error q => simp only [dotProductCPU, hcs]
  | ok cs =>
    rw [workersLaunched_eq hcs] at hs hi hi'
    have hmem : ∀ k, k < cs.length → k ∈ sched :=
      fun k hk => hs.mem_iff.2 (List.mem_range.2 hk)
    by_cases hbad : ∃ (i : Nat) (c : Int × Int) (q : GoPanic),
        cs[i]? = some c ∧ worker s1 s2 c.1 c.2 = .error q
    · rw [dotProductCPU_error s1 s2 gn cs hcs hbad sched iter hmem,
        dotProductCPU_error s1 s2 gn cs hcs hbad sched iter' hmem]
    · have hw : ∀ i c, cs[i]? = some c →
          worker s1 s2 c.1 c.2 = .ok (partialOf s1 s2 cs i) := by
        intro i c hic
        cases hwc : worker s1 s2 c.1 c.2 with
        | error q => exact absurd ⟨i, c, q, hic, hwc⟩ hbad
        | ok v => simp only [partialOf, hic, hwc]
      rw [dotProductCPU_ok s1 s2 gn cs _ hcs hw sched iter hmem
          (fun k hk => List.mem_range.1 (hi.mem_iff.1 hk)),
        dotProductCPU_ok s1 s2 gn cs _ hcs hw sched iter' hmem
          (fun k hk => List.mem_range.1 (hi'.mem_iff.1 hk))]
      exact congrArg Except.ok ((hi.trans hi'.symm).foldl_eq'
        (fun x _ y _ z => hcomm z (partialOf s1 s2 cs x) (partialOf s1 s2 cs y)) 0)

/-- C7 (counterexample): with `float32` rounding, on the vectors `[2^24, 1, 1]`, `[1, 1, 1]`
of size `3`, `dotProductCPU` with `workerCount = 8` returns `2^24` when `range results`
visits the map in the order `0, 1, 2`, and with `workerCount = 3` returns `2^24 + 2` when it
visits the map in the order `2, 1, 0`. -/
theorem dotProductCPU_clamped_counterexample :
    dotProductCPU [0, 1, 2] [0, 1, 2] [(⟨16777216⟩ : F32), ⟨1⟩, ⟨1⟩] [⟨1⟩, ⟨1⟩, ⟨1⟩] 8
        = .ok ⟨16777216⟩
      ∧ dotProductCPU [0, 1, 2] [2, 1, 0] [(⟨16777216⟩ : F32), ⟨1⟩, ⟨1⟩] [⟨1⟩, ⟨1⟩, ⟨1⟩] 3
        = .ok ⟨16777218⟩
      ∧ dotProductCPU [0, 1, 2] [0, 1, 2] [(⟨16777216⟩ : F32), ⟨1⟩, ⟨1⟩] [⟨1⟩, ⟨1⟩, ⟨1⟩] 8
        ≠ dotProductCPU [0, 1, 2] [2, 1, 0] [(⟨16777216⟩ : F32), ⟨1⟩, ⟨1⟩] [⟨1⟩, ⟨1⟩, ⟨1⟩] 3 := by
  decide

/-- C7 (amended): for `size >= 1` (a slice length, hence below `2^62`) and
`workerCount > size`, `dotProductCPU` uses the same chunk sequence as with
`workerCount = size`, namely the `size` one-element chunks `[i, i + 1)`, `i = 0 .. size - 1`,
and is the same function of the completion order of the workers and of the iteration order
of the results map as with `workerCount = size`; when addition satisfies
`(a + b) + c = (a + c) + b` (exact arithmetic) it returns the same result as with
`workerCount = size`, whatever these orders are in each of the two calls. -/
theorem dotProductCPU_clamped {α : Type} [Add α] [Mul α] [Zero α] (sched iter : List Nat)
    (s1 s2 : List α) (gn : Int) (hne : 1 ≤ s1.length) (hb : s1.length < 2 ^ 62)
    (hgn : (s1.length : Int) < gn) :
    chunks (s1.length : Int) gn = chunks (s1.length : Int) (s1.length : Int)
      ∧ chunks (s1.length : Int) gn
          = .ok ((List.range s1.length).map fun (i : Nat) => ((i : Int), (i : Int) + 1))
      ∧ dotProductCPU sched iter s1 s2 gn = dotProductCPU sched iter s1 s2 (s1.length : Int)
      ∧ ∀ sched' iter' : List Nat,
          sched.Perm (List.range s1.length) → iter.Perm (List.range s1.length) →
          sched'.Perm (List.range s1.length) → iter'.Perm (List.range s1.length) →
          (∀ a b c : α, a + b + c = a + c + b) →
          dotProductCPU sched iter s1 s2 gn
            = dotProductCPU sched' iter' s1 s2 (s1.length : Int) := by
  have h1 := chunks_of_le s1.length gn hne hb (by omega)
  have h2 := chunks_of_le s1.length (s1.length : Int) hne hb (by omega)
  have hsame : dotProductCPU sched iter s1 s2 gn
      = dotProductCPU sched iter s1 s2 (s1.length : Int) := by
    unfold dotProductCPU
    rw [h1, h2]
  refine ⟨h1.trans h2.symm, h1, hsame, fun sched' iter' hs hi hs' hi' hcomm => ?_⟩
  have hn : workersLaunched (s1.length : Int) (s1.length : Int) = s1.length := by
    rw [workersLaunched_eq h2, List.length_map, List.length_range]
  rw [← hn] at hs hi hs' hi'
  rw [hsame, dotProductCPU_sched s1 s2 _ sched sched' iter hs hs',
    dotProductCPU_iter s1 s2 _ sched' iter iter' hs' hi hi' hcomm]

theorem dotProductCPU_clamped_witness :
    chunks (([1, 2, 3] : List Int).length : Int) 8
        = chunks (([1, 2, 3] : List Int).length : Int) (([1, 2, 3] : List Int).length : Int)
      ∧ chunks (([1, 2, 3] : List Int).length : Int) 8
          = .ok ((List.range ([1, 2, 3] : List Int).length).map
              fun (i : Nat) => ((i : Int), (i : Int) + 1))
      ∧ dotProductCPU [2, 0, 1] [1, 2, 0] [1, 2, 3] [4, 5, (6 : Int)] 8
          = dotProductCPU [2, 0, 1] [1, 2, 0] [1, 2, 3] [4, 5, (6 : Int)]
              (([1, 2, 3] : List Int).length : Int)
      ∧ dotProductCPU [2, 0, 1] [1, 2, 0] [1, 2, 3] [4, 5, (6 : Int)] 8
          = dotProductCPU [0, 1, 2] [2, 1, 0] [1, 2, 3] [4, 5, (6 : Int)]
              (([1, 2, 3] : List Int).length : Int) := by
  have h := dotProductCPU_clamped [2, 0, 1] [1, 2, 0] [1, 2, 3] [4, 5, (6 : Int)] 8
    (by decide) (by decide) (by decide)
  exact ⟨h.1, h.2.1, h.2.2.1,
    h.2.2.2 [0, 1, 2] [2, 1, 0] (by decide) (by decide) (by decide) (by decide)
      (fun a b c => by omega)⟩

theorem worker_chunkNat_ok {α : Type} [Add α] [Mul α] [Zero α]
    (s1 s2 : List α) (c i : Nat) (hlen : s1.length ≤ s2.length) :
    worker s1 s2 (chunkNat s1.length c i).1 (chunkNat s1.length c i).2
      = .ok ((workerIndices (chunkNat s1.length c i).1 (chunkNat s1.length c i).2).foldl
          (fun a j => a + prodAt s1 s2 j) 0) := by
  unfold worker
  refine mulAddLoop_ok s1 s2 _ _ fun j hj => ?_
  have h := workerIndices_chunkNat hj
  omega

/-- C10: for `len(s1) >= 1` (below `2^62`), `len(s2) >= len(s1)` and `gn >= 1`, the
chunk-size division has
a non-zero divisor, every index `j` at which a worker of `dotProductCPU` reads `s1[j]` and
`s2[j]` satisfies `0 <= j < len(s1)`, a chunk whose start is greater than `size` visits no
index, every worker returns without a panic, and so does `dotProductCPU`. -/
theorem dotProductCPU_in_range {α : Type} [Add α] [Mul α] [Zero α] (s1 s2 : List α) (gn : Int)
    (hne : 1 ≤ s1.length) (hb : s1.length < 2 ^ 62) (hlen : s1.length ≤ s2.length)
    (hgn : 1 ≤ gn) :
    clampWorkers (s1.length : Int) gn ≠ 0
      ∧ ∃ cs, chunks (s1.length : Int) gn = .ok cs
          ∧ (∀ c ∈ cs,
              (∀ j ∈ workerIndices c.1 c.2, 0 ≤ j ∧ j < (s1.length : Int))
                ∧ ((s1.length : Int) < c.1 → workerIndices c.1 c.2 = [])
                ∧ ∃ v, worker s1 s2 c.1 c.2 = .ok v)
          ∧ ∀ sched iter : List Nat, sched.Perm (List.range cs.length) →
              iter.Perm (List.range cs.length) →
              ∃ r, dotProductCPU sched iter s1 s2 gn = .ok r := by
  have hn := workerCount_pos s1.length gn hne hgn
  have hcs := chunks_eq s1.length gn hne hb hgn
  refine ⟨?_, _, hcs, ?_, ?_⟩
  · rw [clampWorkers_eq s1.length gn hgn]
    omega
  · intro c hc
    obtain ⟨i, -, rfl⟩ := List.mem_map.1 hc
    refine ⟨fun j hj => workerIndices_chunkNat hj, fun hlt => ?_,
      _, worker_chunkNat_ok s1 s2 _ i hlen⟩
    have hm : min ((i + 1) * ceilDiv s1.length (workerCount s1.length gn)) s1.length
        ≤ s1.length := Nat.min_le_right _ _
    unfold workerIndices
    simp only [chunkNat] at hlt ⊢
    generalize min ((i + 1) * ceilDiv s1.length (workerCount s1.length gn)) s1.length = e at hm
    generalize i * ceilDiv s1.length (workerCount s1.length gn) = st at hlt
    have h0 : ((e : Int) - (st : Int)).toNat = 0 := by omega
    rw [h0]
    rfl
  · intro sched iter hs hi
    refine ⟨_, dotProductCPU_ok s1 s2 gn _
      (fun i => (workerIndices
          (chunkNat s1.length (ceilDiv s1.length (workerCount s1.length gn)) i).1
          (chunkNat s1.length (ceilDiv s1.length (workerCount s1.length gn)) i).2).foldl
        (fun a j => a + prodAt s1 s2 j) 0) hcs ?_ sched iter
      (fun k hk => hs.mem_iff.2 (List.mem_range.2 hk))
      (fun k hk => List.mem_range.1 (hi.mem_iff.1 hk))⟩
    intro i c hic
    obtain ⟨-, rfl⟩ := chunkNat_getElem? hic
    exact worker_chunkNat_ok s1 s2 _ i hlen

theorem dotProductCPU_in_range_witness :
    clampWorkers (([1, 2, 3, 4, 5] : List Int).length : Int) 4 ≠ 0
      ∧ ∃ cs, chunks (([1, 2, 3, 4, 5] : List Int).length : Int) 4 = .ok cs
          ∧ (∀ c ∈ cs,
              (∀ j ∈ workerIndices c.1 c.2,
                  0 ≤ j ∧ j < (([1, 2, 3, 4, 5] : List Int).length : Int))
                ∧ ((([1, 2, 3, 4, 5] : List Int).length : Int) < c.1
                    → workerIndices c.1 c.2 = [])
                ∧ ∃ v, worker [1, 2, 3, 4, 5] [1, 1, 1, 1, 1, (1 : Int)] c.1 c.2 = .ok v)
          ∧ ∀ sched iter : List Nat, sched.Perm (List.range cs.length) →
              iter.Perm (List.range cs.length) →
              ∃ r, dotProductCPU sched iter [1, 2, 3, 4, 5] [1, 1, 1, 1, 1, (1 : Int)] 4
                = .ok r :=
  dotProductCPU_in_range [1, 2, 3, 4, 5] [1, 1, 1, 1, 1, (1 : Int)] 4 (by decide) (by decide)
    (by decide) (by decide)

/-! ## Equivalence of `dotProductCPU` and `dotProductNaive` in exact arithmetic -/

theorem foldl_add_eq_sum {α : Type} [AddCommMonoid α]
    {ι : Type} (f : ι → α) (l : List ι) (acc : α) :
    l.foldl (fun a j => a + f j) acc = acc + (l.map f).sum := by
  induction l generalizing acc with
  | nil => simp
  | cons x l ih => simp [ih, add_assoc]

theorem list_sum_range {α : Type} [AddCommMonoid α] (f : Nat → α) (n : Nat) :
    ((List.range n).map f).sum = ∑ i ∈ Finset.range n, f i := by
  induction n with
  | zero => simp
  | succ n ih => rw [List.sum_range_succ, Finset.sum_range_succ, ih]

/-- The partial result of a chunk `[a, b)` with `b <= size`. -/
theorem workerIndices_sum {α : Type} [AddCommMonoid α] [Mul α] (s1 s2 : List α) (a b : Nat) :
    (workerIndices (a : Int) (b : Int)).foldl (fun r j => r + prodAt s1 s2 j) 0
      = ∑ j ∈ Finset.Ico a b, prodAt s1 s2 (j : Int) := by
  rw [foldl_add_eq_sum, zero_add, Finset.sum_Ico_eq_sum_range]
  unfold workerIndices
  rw [Int.toNat_sub, List.map_map, ← list_sum_range]
  refine congrArg List.sum (List.map_congr_left fun k _ => ?_)
  simp

theorem sum_chunks {α : Type} [AddCommMonoid α] (g : Nat → α) (size c : Nat) :
    ∀ n : Nat, ∑ i ∈ Finset.range n, ∑ j ∈ Finset.Ico (i * c) (min ((i + 1) * c) size), g j
      = ∑ j ∈ Finset.range (min (n * c) size), g j
  | 0 => by simp
  | n + 1 => by
    rw [Finset.sum_range_succ, sum_chunks g size c n]
    have hstep : n * c ≤ (n + 1) * c := Nat.mul_le_mul_right c (Nat.le_succ n)
    rcases Nat.le_total (n * c) size with h | h
    · rw [Nat.min_eq_left h]
      exact Finset.sum_range_add_sum_Ico g (Nat.le_min.2 ⟨hstep, h⟩)
    · rw [Nat.min_eq_right h, Nat.min_eq_right (Nat.le_trans h hstep),
        Finset.Ico_eq_empty (by omega), Finset.sum_empty, add_zero]

theorem zipWith_sum_eq {α : Type} [AddCommMonoid α] [Mul α]
    (s1 s2 : List α) (hlen : s1.length ≤ s2.length) :
    (List.zipWith (· * ·) s1 s2).sum
      = ∑ j ∈ Finset.range s1.length, prodAt s1 s2 (j : Int) := by
  rw [← map_prodAt_rangeIndices s1 s2 hlen, ← list_sum_range]
  unfold rangeIndices
  rw [List.map_map]
  rfl

theorem dotProductNaive_sum {α : Type} [AddCommMonoid α] [Mul α]
    (s1 s2 : List α) (hlen : s1.length ≤ s2.length) :
    dotProductNaive s1 s2 = .ok (List.zipWith (· * ·) s1 s2).sum := by
  rw [dotProductNaive_ok s1 s2 hlen, List.sum_eq_foldl]

theorem dotProductCPU_sum {α : Type} [AddCommMonoid α] [Mul α]
    (sched iter : List Nat) (s1 s2 : List α) (gn : Int)
    (hlen : s1.length ≤ s2.length) (hne : 1 ≤ s1.length) (hb : s1.length < 2 ^ 62)
    (hgn : 1 ≤ gn)
    (hs : sched.Perm (List.range (workersLaunched (s1.length : Int) gn)))
    (hi : iter.Perm (List.range (workersLaunched (s1.length : Int) gn))) :
    dotProductCPU sched iter s1 s2 gn = .ok (List.zipWith (· * ·) s1 s2).sum := by
  have hn := workerCount_pos s1.length gn hne hgn
  have hcs := chunks_eq s1.length gn hne hb hgn
  rw [workersLaunched_eq hcs, List.length_map, List.length_range] at hs hi
  rw [dotProductCPU_ok s1 s2 gn _
    (fun i => ∑ j ∈ Finset.Ico (i * ceilDiv s1.length (workerCount s1.length gn))
      (min ((i + 1) * ceilDiv s1.length (workerCount s1.length gn)) s1.length),
      prodAt s1 s2 (j : Int)) hcs ?_ sched iter
    (fun k hk => hs.mem_iff.2 (List.mem_range.2 (by simpa using hk)))
    (fun k hk => by simpa using List.mem_range.1 (hi.mem_iff.1 hk))]
  · refine congrArg Except.ok ?_
    rw [foldl_add_eq_sum, zero_add, (hi.map _).sum_eq, list_sum_range, sum_chunks,
      Nat.min_eq_right (ceilDiv_mul_ge _ hn),
      zipWith_sum_eq s1 s2 hlen]
  · intro i c hic
    obtain ⟨-, rfl⟩ := chunkNat_getElem? hic
    rw [worker_chunkNat_ok s1 s2 _ i hlen]
    exact congrArg Except.ok (workerIndices_sum s1 s2 _ _)

/-- C1: for vectors `s1`, `s2` of equal length `n >= 1` (a slice length, hence below `2^62`)
and every worker count `gn >= 1`, whatever the completion order of the workers and the
iteration order of the results map,
`dotProductCPU(s1, s2, gn)` returns the same scalar as `dotProductNaive(s1, s2)`, the sum of
the products `s1[i] * s2[i]`, when element arithmetic is exact (a commutative monoid under
addition). -/
theorem dotProductCPU_eq_dotProductNaive {α : Type} [AddCommMonoid α] [Mul α]
    (sched iter : List Nat) (s1 s2 : List α) (gn : Int) (hlen : s1.length = s2.length)
    (hne : 1 ≤ s1.length) (hb : s1.length < 2 ^ 62) (hgn : 1 ≤ gn)
    (hs : sched.Perm (List.range (workersLaunched (s1.length : Int) gn)))
    (hi : iter.Perm (List.range (workersLaunched (s1.length : Int) gn))) :
    dotProductCPU sched iter s1 s2 gn = dotProductNaive s1 s2
      ∧ dotProductNaive s1 s2 = .ok (List.zipWith (· * ·) s1 s2).sum := by
  have h1 := dotProductCPU_sum sched iter s1 s2 gn (Nat.le_of_eq hlen) hne hb hgn hs hi
  have h2 := dotProductNaive_sum s1 s2 (Nat.le_of_eq hlen)
  exact ⟨h1.trans h2.symm, h2⟩

theorem dotProductCPU_eq_dotProductNaive_witness :
    dotProductCPU [1, 0] [1, 0] [1, 2, 3, 4] [5, 6, 7, (8 : Int)] 2
        = dotProductNaive [1, 2, 3, 4] [5, 6, 7, (8 : Int)]
      ∧ dotProductNaive [1, 2, 3, 4] [5, 6, 7, (8 : Int)] = .ok 70 :=
  dotProductCPU_eq_dotProductNaive [1, 0] [1, 0] [1, 2, 3, 4] [5, 6, 7, (8 : Int)] 2
    (by decide) (by decide) (by decide) (by decide) (by decide) (by decide)

end GoGpu
